import Mathlib

/-!
Verification of the tauri-json-storage document store (src/storage.ts and
src/utils.ts) against its design specification.

The development shallowly embeds the live code paths of the repository:
JSON values and the JSON.stringify / JSON.parse pair used by the store, the
path and filename derivation of utils.ts, and the storage operations of
storage.ts over an explicit filesystem state.  JavaScript-runtime behaviour
that the code relies on (string truthiness, Promise objects being truthy,
Array.filter and Array.reduce with async callbacks) is modelled explicitly,
because several code paths depend on it.
-/

namespace TauriJsonStorage

/-- JSON documents.  Numbers are modelled as integers: the store treats
documents opaquely, and integer numbers are enough to exercise every code
path of the serializer and parser pair.  Object fields are an ordered list
of key-value pairs, as JSON.stringify and JSON.parse preserve insertion
order. -/
inductive Json where
  | null
  | bool (b : Bool)
  | num (n : Int)
  | str (s : List Char)
  | arr (xs : List Json)
  | obj (fields : List (List Char × Json))
deriving Repr

/-- The opening brace character. -/
def lbrace : Char := Char.ofNat 123

/-- The closing brace character. -/
def rbrace : Char := Char.ofNat 125

/-- Decimal digit character, defined by cases so that proofs can discharge
facts about it by computation. -/
def digitChar : Nat → Char
  | 0 => '0'
  | 1 => '1'
  | 2 => '2'
  | 3 => '3'
  | 4 => '4'
  | 5 => '5'
  | 6 => '6'
  | 7 => '7'
  | 8 => '8'
  | 9 => '9'
  | _ => '0'

/-- Lowercase hexadecimal digit character, as emitted by JSON.stringify in
its escape sequences. -/
def hexDigitChar : Nat → Char
  | 0 => '0'
  | 1 => '1'
  | 2 => '2'
  | 3 => '3'
  | 4 => '4'
  | 5 => '5'
  | 6 => '6'
  | 7 => '7'
  | 8 => '8'
  | 9 => '9'
  | 10 => 'a'
  | 11 => 'b'
  | 12 => 'c'
  | 13 => 'd'
  | 14 => 'e'
  | 15 => 'f'
  | _ => '0'

/-- Fueled worker for the decimal rendering of a natural number; the fuel
only bounds the recursion depth and is irrelevant once it exceeds the
argument. -/
def natDigitsGo : Nat → Nat → List Char
  | 0, _ => []
  | f + 1, n =>
    if n < 10 then [digitChar n]
    else natDigitsGo f (n / 10) ++ [digitChar (n % 10)]

/-- Decimal digit list of a natural number, most significant first. -/
def natDigits (n : Nat) : List Char := natDigitsGo (n + 1) n

def intChars : Int → List Char
  | .ofNat n => natDigits n
  | .negSucc m => '-' :: natDigits (m + 1)

/-- The six-character unicode escape of a code point below 32, as
JSON.stringify emits it: a `u`, two zero digits and two hex digits. -/
def uEscape (n : Nat) : List Char :=
  '\\' :: 'u' :: '0' :: '0' :: [hexDigitChar (n / 16), hexDigitChar (n % 16)]

/-- The escape of one character inside a JSON string literal, following
JSON.stringify: quote and backslash get a backslash escape, the five named
control characters get their short escapes, the remaining control
characters get a lowercase unicode escape, and everything else is emitted
as itself. -/
def escChar (c : Char) : List Char :=
  if c = '"' then ['\\', '"']
  else if c = '\\' then ['\\', '\\']
  else if c = Char.ofNat 8 then ['\\', 'b']
  else if c = Char.ofNat 9 then ['\\', 't']
  else if c = Char.ofNat 10 then ['\\', 'n']
  else if c = Char.ofNat 12 then ['\\', 'f']
  else if c = Char.ofNat 13 then ['\\', 'r']
  else if c.toNat < 32 then uEscape c.toNat
  else [c]

/-- Escape a whole string body. -/
def escString (s : List Char) : List Char :=
  s.foldr (fun c acc => escChar c ++ acc) []

mutual

/-- Compact serialization of a JSON value, character by character: the
output of `JSON.stringify(v, null, 0)`, which emits no whitespace. -/
def strVal : Json → List Char
  | .null => "null".data
  | .bool true => "true".data
  | .bool false => "false".data
  | .num n => intChars n
  | .str s => '"' :: escString s ++ ['"']
  | .arr [] => ['[', ']']
  | .arr (x :: xs) => '[' :: strVal x ++ strTail xs
  | .obj [] => [lbrace, rbrace]
  | .obj (f :: fs) => lbrace :: strField f ++ strFTail fs

/-- Remaining elements of an array body, each preceded by a comma, closed
by a bracket. -/
def strTail : List Json → List Char
  | [] => [']']
  | x :: xs => ',' :: strVal x ++ strTail xs

/-- One object member: quoted escaped key, colon, value. -/
def strField : List Char × Json → List Char
  | (k, v) => '"' :: escString k ++ '"' :: ':' :: strVal v

/-- Remaining members of an object body, each preceded by a comma, closed
by a brace. -/
def strFTail : List (List Char × Json) → List Char
  | [] => [rbrace]
  | f :: fs => ',' :: strField f ++ strFTail fs

end

/-- Compact JSON text of a value, as a string. -/
def strJ (v : Json) : String := String.mk (strVal v)

/-- Hexadecimal digit value accepted by the parser, upper or lower case. -/
def hexVal (c : Char) : Option Nat :=
  if c.isDigit then some (c.toNat - 48)
  else if 97 ≤ c.toNat ∧ c.toNat ≤ 102 then some (c.toNat - 87)
  else if 65 ≤ c.toNat ∧ c.toNat ≤ 70 then some (c.toNat - 55)
  else none

/-- Named single-character escapes accepted inside JSON string literals. -/
def unescName (e : Char) : Option Char :=
  if e = '"' then some '"'
  else if e = '\\' then some '\\'
  else if e = '/' then some '/'
  else if e = 'b' then some (Char.ofNat 8)
  else if e = 't' then some (Char.ofNat 9)
  else if e = 'n' then some (Char.ofNat 10)
  else if e = 'f' then some (Char.ofNat 12)
  else if e = 'r' then some (Char.ofNat 13)
  else none

mutual

/-- Parse the body of a JSON string literal after its opening quote,
returning the decoded characters and the input after the closing quote. -/
def parseStr : List Char → Option (List Char × List Char)
  | [] => none
  | c :: r =>
    if c = '"' then some ([], r)
    else if c = '\\' then parseEsc r
    else
      match parseStr r with
      | some (s, rest) => some (c :: s, rest)
      | none => none

/-- Parse what follows a backslash inside a string literal. -/
def parseEsc : List Char → Option (List Char × List Char)
  | [] => none
  | e :: r2 =>
    if e = 'u' then parseHex4 r2
    else
      match unescName e with
      | some c2 =>
        match parseStr r2 with
        | some (s, rest) => some (c2 :: s, rest)
        | none => none
      | none => none

/-- Parse the four hex digits of a unicode escape and the remainder of the
string literal. -/
def parseHex4 : List Char → Option (List Char × List Char)
  | h1 :: h2 :: h3 :: h4 :: r3 =>
    match hexVal h1, hexVal h2, hexVal h3, hexVal h4 with
    | some a, some b, some c2, some d =>
      match parseStr r3 with
      | some (s, rest) =>
        some (Char.ofNat (4096 * a + 256 * b + 16 * c2 + d) :: s, rest)
      | none => none
    | _, _, _, _ => none
  | _ => none

end

/-- Numeric value of a digit character. -/
def digToNat (c : Char) : Nat := c.toNat - 48

/-- Consume a maximal run of decimal digits, folding them onto an
accumulator. -/
def parseDigsAux (acc : Nat) : List Char → Nat × List Char
  | [] => (acc, [])
  | c :: r => if c.isDigit then parseDigsAux (10 * acc + digToNat c) r else (acc, c :: r)

/-- Parse a nonempty run of decimal digits as a natural number. -/
def parseNat : List Char → Option (Nat × List Char)
  | [] => none
  | c :: r => if c.isDigit then some (parseDigsAux (digToNat c) r) else none

/-- Consume an expected literal tail, character by character. -/
def dropLit : List Char → List Char → Option (List Char)
  | [], r => some r
  | _ :: _, [] => none
  | l :: ls, c :: r => if c = l then dropLit ls r else none

/-- Whether the input starts with the given character. -/
def headIs (c : Char) : List Char → Bool
  | [] => false
  | d :: _ => d == c

/-- The input without its first character. -/
def tail1 : List Char → List Char
  | [] => []
  | _ :: r => r

mutual

/-- Fuel-indexed recursive-descent parser for compact JSON values: the
model of JSON.parse on the texts the store writes.  Whitespace skipping is
elided because the compact serializer emits none. -/
def parseVal : Nat → List Char → Option (Json × List Char)
  | 0, _ => none
  | _ + 1, [] => none
  | n + 1, c :: r =>
    if c = 'n' then
      match dropLit "ull".data r with
      | some r2 => some (.null, r2)
      | none => none
    else if c = 't' then
      match dropLit "rue".data r with
      | some r2 => some (.bool true, r2)
      | none => none
    else if c = 'f' then
      match dropLit "alse".data r with
      | some r2 => some (.bool false, r2)
      | none => none
    else if c = '"' then
      match parseStr r with
      | some (s, r2) => some (.str s, r2)
      | none => none
    else if c = '-' then
      match parseNat r with
      | some (m, r2) => some (.num (-(m : Int)), r2)
      | none => none
    else if c.isDigit then
      let p := parseDigsAux (digToNat c) r
      some (.num (p.1 : Int), p.2)
    else if c = '[' then
      if headIs ']' r then some (.arr [], tail1 r)
      else
        match parseVal n r with
        | some (v, r3) =>
          match parseItems n r3 with
          | some (vs, r4) => some (.arr (v :: vs), r4)
          | none => none
        | none => none
    else if c = lbrace then
      if headIs rbrace r then some (.obj [], tail1 r)
      else
        match parseMember n r with
        | some (f, r3) =>
          match parseMembers n r3 with
          | some (fs, r4) => some (.obj (f :: fs), r4)
          | none => none
        | none => none
    else none

/-- Parse the continuation of an array body: a closing bracket, or a comma
followed by a value and a further continuation. -/
def parseItems : Nat → List Char → Option (List Json × List Char)
  | 0, _ => none
  | _ + 1, [] => none
  | n + 1, c :: r =>
    if c = ']' then some ([], r)
    else if c = ',' then
      match parseVal n r with
      | some (v, r2) =>
        match parseItems n r2 with
        | some (vs, r3) => some (v :: vs, r3)
        | none => none
      | none => none
    else none

/-- Parse one object member: quoted key, colon, value. -/
def parseMember : Nat → List Char → Option ((List Char × Json) × List Char)
  | 0, _ => none
  | _ + 1, [] => none
  | n + 1, q :: r =>
    if q = '"' then
      match parseStr r with
      | some (k, r2) =>
        match r2 with
        | [] => none
        | colon :: r3 =>
          if colon = ':' then
            match parseVal n r3 with
            | some (v, r4) => some ((k, v), r4)
            | none => none
          else none
      | none => none
    else none

/-- Parse the continuation of an object body: a closing brace, or a comma
followed by a member and a further continuation. -/
def parseMembers : Nat → List Char → Option (List (List Char × Json) × List Char)
  | 0, _ => none
  | _ + 1, [] => none
  | n + 1, c :: r =>
    if c = rbrace then some ([], r)
    else if c = ',' then
      match parseMember n r with
      | some (f, r2) =>
        match parseMembers n r2 with
        | some (fs, r3) => some (f :: fs, r3)
        | none => none
      | none => none
    else none

end

/-- JSON.parse model on whole strings: the parse must consume the entire
input.  The fuel is one more than the input length, which is enough for
any value whose text fits in the input. -/
def jparse (s : String) : Option Json :=
  match parseVal (s.data.length + 1) s.data with
  | some (v, []) => some v
  | _ => none

/-- A continuation on which a maximal digit run stops: empty, or starting
with a non-digit. -/
def delimB : List Char → Bool
  | [] => true
  | c :: _ => !c.isDigit

def digFold (acc : Nat) (ds : List Char) : Nat :=
  ds.foldl (fun a c => 10 * a + digToNat c) acc

def digitCharsL : List Char := "0123456789".data

/-- Characters that can start the compact serialization of a value. -/
def headChars : List Char := ['n', 't', 'f', '"', '-', '[', lbrace] ++ digitCharsL

mutual

/-- Size of a value: a lower bound on the parser fuel that suffices for its
compact text.  The companions below size element lists, members and member
lists. -/
def jsize : Json → Nat
  | .null => 1
  | .bool _ => 1
  | .num _ => 1
  | .str _ => 1
  | .arr [] => 1
  | .arr (x :: xs) => 1 + jsize x + jsizeL xs
  | .obj [] => 1
  | .obj (f :: fs) => 1 + jsizeF f + jsizeFL fs

def jsizeL : List Json → Nat
  | [] => 1
  | x :: xs => 1 + jsize x + jsizeL xs

def jsizeF : List Char × Json → Nat
  | (_, v) => 1 + jsize v

def jsizeFL : List (List Char × Json) → Nat
  | [] => 1
  | f :: fs => 1 + jsizeF f + jsizeFL fs

end

/-- Newline followed by the given number of spaces, the separator JSON
stringify emits between members in indented mode. -/
def nlIndent (ind : Nat) : List Char := '\n' :: List.replicate ind ' '

mutual

/-- Indented serialization of a value: the output of JSON.stringify with a
positive gap, rendered at the given indentation depth.  Scalars render as
in the compact form; arrays and objects spread over lines. -/
def strValP (gap ind : Nat) : Json → List Char
  | .null => strVal .null
  | .bool b => strVal (.bool b)
  | .num n => strVal (.num n)
  | .str s => strVal (.str s)
  | .arr [] => ['[', ']']
  | .arr (x :: xs) =>
    '[' :: nlIndent (ind + gap) ++ strValP gap (ind + gap) x ++
      strTailP gap (ind + gap) xs ++ nlIndent ind ++ [']']
  | .obj [] => [lbrace, rbrace]
  | .obj (f :: fs) =>
    lbrace :: nlIndent (ind + gap) ++ strFieldP gap (ind + gap) f ++
      strFTailP gap (ind + gap) fs ++ nlIndent ind ++ [rbrace]

/-- Remaining array elements in indented mode. -/
def strTailP (gap ind : Nat) : List Json → List Char
  | [] => []
  | x :: xs => ',' :: nlIndent ind ++ strValP gap ind x ++ strTailP gap ind xs

/-- One object member in indented mode: a space follows the colon. -/
def strFieldP (gap ind : Nat) : List Char × Json → List Char
  | (k, v) => '"' :: escString k ++ '"' :: ':' :: ' ' :: strValP gap ind v

/-- Remaining object members in indented mode. -/
def strFTailP (gap ind : Nat) : List (List Char × Json) → List Char
  | [] => []
  | f :: fs => ',' :: nlIndent ind ++ strFieldP gap ind f ++ strFTailP gap ind fs

end

/-- The model of `JSON.stringify(json, null, gap)` as called by storage.set
with gap either 0 (compact) or 2 (prettyPrinting). -/
def jsStringify (v : Json) (gap : Nat) : String :=
  if gap = 0 then strJ v else String.mk (strValP gap 0 v)

/-- Error taxonomy of the module: the explicit throws of utils.getFileName,
utils.setDataPath, storage.set, the JSON.parse failure in storage.get, and
filesystem errors surfaced from the tauri fs API. -/
inductive FsErr where
  | ENOENT
  | EPERM
  | Other (code : String)
deriving Repr, DecidableEq

inductive Err where
  | MissingKey
  | InvalidKey
  | NoDataPath
  | PathNotAbsolute
  | CorruptData
  | SerializationError
  | Io (e : FsErr)
deriving Repr, DecidableEq

/-- A JavaScript Promise object used in boolean position is always truthy,
whatever value it resolves to.  Both utils.getDataPath and the keys filter
depend on this. -/
def promiseIsTruthy : Bool := true

/-- JavaScript string truthiness: undefined and the empty string are
falsy. -/
def jsTruthyS : Option String → Bool
  | none => false
  | some s => !(s = "")

/-- The JavaScript expression `a || b` on string-or-undefined values. -/
def jsOrS (a b : Option String) : Option String := if jsTruthyS a then a else b

/-- Process-wide environment of utils.ts: the mutable currentDataPath
override, and the platform value that `path.join(path.dataDir(), "storage")`
would compute (an external input to the module). -/
structure Env where
  currentDataPath : Option String
  defaultDataPath : String
deriving Repr

/-- utils.getDefaultDataPath: the platform application-data directory
joined with `storage`; an external value held in the environment. -/
def getDefaultDataPath (env : Env) : String := env.defaultDataPath

/-- utils.getDataPath.  The source returns
`(new Promise(resolve => resolve(currentDataPath))) || await getDefaultDataPath()`.
The left operand is a Promise object and therefore truthy, so the function
always answers the resolved currentDataPath, possibly undefined; the
default-path fallback on the right is dead code. -/
def getDataPath (env : Env) : Option String :=
  if promiseIsTruthy then env.currentDataPath else some (getDefaultDataPath env)

/-- Model of tauri path.isAbsolute for POSIX-style paths. -/
def isAbsoluteS (p : String) : Bool := p.data.take 1 = ['/']

/-- Model of tauri path.normalize; normalization of separators is elided,
the path is kept as given. -/
def normalizeS (p : String) : String := p

/-- utils.setDataPath: clears the override when given no directory, rejects
non-absolute paths, and otherwise stores the normalized path.  The result
is the new value of the process-wide currentDataPath. -/
def setDataPath (dir : Option String) : Except Err (Option String) :=
  match dir with
  | none => .ok none
  | some d =>
    if !(isAbsoluteS d) then .error .PathNotAbsolute
    else .ok (some (normalizeS d))

/-- Last path segment: the fold resets at every separator, modelling tauri
path.basename on POSIX-style paths. -/
def basenameL (cs : List Char) : List Char :=
  cs.foldl (fun acc c => if c = '/' then [] else acc ++ [c]) []

/-- The characters of the `.json` extension. -/
def dotJson : List Char := ['.', 'j', 's', 'o', 'n']

/-- Whether `cs` ends with `suf`. -/
def endsWithL (cs suf : List Char) : Bool := cs.drop (cs.length - suf.length) = suf

/-- Strip one trailing `.json`, modelling the extension argument of tauri
path.basename. -/
def stripDotJson (cs : List Char) : List Char :=
  if endsWithL cs dotJson then cs.take (cs.length - dotJson.length) else cs

/-- Characters encodeURIComponent leaves unescaped. -/
def uriUnreserved (c : Char) : Bool :=
  c.isAlphanum || c = '-' || c = '_' || c = '.' || c = '!' || c = '~' ||
    c = '*' || c = '\'' || c = '(' || c = ')'

/-- UTF-8 bytes of a unicode scalar value. -/
def utf8Bytes (n : Nat) : List Nat :=
  if n < 128 then [n]
  else if n < 2048 then [192 + n / 64, 128 + n % 64]
  else if n < 65536 then [224 + n / 4096, 128 + n / 64 % 64, 128 + n % 64]
  else [240 + n / 262144, 128 + n / 4096 % 64, 128 + n / 64 % 64, 128 + n % 64]

/-- Uppercase hexadecimal digit, as emitted by encodeURIComponent. -/
def hexDigitUpper : Nat → Char
  | 0 => '0'
  | 1 => '1'
  | 2 => '2'
  | 3 => '3'
  | 4 => '4'
  | 5 => '5'
  | 6 => '6'
  | 7 => '7'
  | 8 => '8'
  | 9 => '9'
  | 10 => 'A'
  | 11 => 'B'
  | 12 => 'C'
  | 13 => 'D'
  | 14 => 'E'
  | 15 => 'F'
  | _ => '0'

/-- Percent escape of one byte. -/
def pctByte (b : Nat) : List Char := ['%', hexDigitUpper (b / 16), hexDigitUpper (b % 16)]

/-- One character under encodeURIComponent. -/
def encChar (c : Char) : List Char :=
  if uriUnreserved c then [c]
  else (utf8Bytes c.toNat).foldr (fun b acc => pctByte b ++ acc) []

/-- Model of the JavaScript encodeURIComponent builtin. -/
def encodeURIComponentL (s : List Char) : List Char :=
  s.foldr (fun c acc => encChar c ++ acc) []

/-- The `.replace(/\x2a/g, "-")` step of getFileName: stars become
dashes. -/
def starToDash (s : List Char) : List Char :=
  s.map (fun c => if c = '*' then '-' else c)

/-- The `.replace(/%20/g, " ")` step of getFileName: escaped spaces become
plain spaces. -/
def rep20 : List Char → List Char
  | '%' :: '2' :: '0' :: r => ' ' :: rep20 r
  | c :: r => c :: rep20 r
  | [] => []

/-- The escaped file name derived from a key: strip one trailing `.json`
from the last path segment, append `.json`, percent-encode, then apply the
two cosmetic replacements. -/
def derivedFileName (key : String) : List Char :=
  rep20 (starToDash (encodeURIComponentL (stripDotJson (basenameL key.data) ++ dotJson)))

/-- utils.getFileName: rejects an empty key (JS falsiness of the empty
string) and a key that trims to nothing, then joins the resolved data path
with the escaped file name.  The data path is
`options.dataPath || await getDataPath()` and the function throws when that
is undefined or empty.  tauri path.join is modelled as separator joining. -/
def getFileName (key : String) (optDataPath : Option String) (env : Env) :
    Except Err String :=
  if key = "" then .error .MissingKey
  else if key.data.all Char.isWhitespace then .error .InvalidKey
  else
    match jsOrS optDataPath (getDataPath env) with
    | none => .error .NoDataPath
    | some dp =>
      if dp = "" then .error .NoDataPath
      else .ok (dp ++ "/" ++ String.mk (derivedFileName key))

/-- utils.getLockFileName: a pure string transform. -/
def getLockFileName (fileName : String) : String := fileName ++ ".lock"

/-- The filesystem state: a map from absolute file paths to file contents.
Directories are implicit; createDir only affects them and is a no-op on
this map. -/
structure FSState where
  files : List (String × String)
deriving Repr

/-- Outcome of one fs.readTextFile attempt. -/
inductive ReadOutcome where
  | ok (content : String)
  | err (e : FsErr)
deriving Repr

/-- The text `JSON.stringify({})` that readFile substitutes for a missing
file. -/
def emptyObjText : String := String.mk [lbrace, rbrace]

/-- Path lookup in the filesystem state. -/
def lookupFile (st : FSState) (p : String) : Option String :=
  st.files.lookup p

/-- The deterministic read oracle of a filesystem state: every attempt
yields the file content, or ENOENT when the file is absent. -/
def traceOfFS (st : FSState) (p : String) : Nat → ReadOutcome := fun _ =>
  match lookupFile st p with
  | some c => .ok c
  | none => .err .ENOENT

/-- Fueled worker for storage.readFile over a per-attempt outcome oracle:
a not-found read yields the text of the empty object, a transient EPERM
read sleeps 1000 ms and recurses while fewer than 10 retries have
happened, and any other error is thrown.  The second component records
the sleep durations performed.  The fuel only bounds recursion depth and
never runs out for times at most 10. -/
def readFileGo (tr : Nat → ReadOutcome) : Nat → Nat → Except FsErr String × List Nat
  | 0, _ => (.error .EPERM, [])
  | f + 1, times =>
    match tr times with
    | .ok c => (.ok c, [])
    | .err .ENOENT => (.ok emptyObjText, [])
    | .err .EPERM =>
      if times < 10 then
        ((readFileGo tr f (times + 1)).1, 1000 :: (readFileGo tr f (times + 1)).2)
      else (.error .EPERM, [])
    | .err e => (.error e, [])

/-- storage.readFile: the bounded retry loop entered at the given attempt
counter (0 at every external call site). -/
def readFile (tr : Nat → ReadOutcome) (times : Nat) : Except FsErr String × List Nat :=
  readFileGo tr (11 - times) times

/-- tauri fs.writeFile: create or fully overwrite one file. -/
def writeFsFile (st : FSState) (p content : String) : FSState :=
  ⟨(p, content) :: st.files.filter (fun q => !(q.1 = p))⟩

/-- tauri fs.removeFile: errors with ENOENT when the file is absent. -/
def removeFsFile (st : FSState) (p : String) : Except FsErr FSState :=
  match lookupFile st p with
  | some _ => .ok ⟨st.files.filter (fun q => !(q.1 = p))⟩
  | none => .error .ENOENT

/-- Whether `cs` starts with `pre`. -/
def startsWithL (pre cs : List Char) : Bool := cs.take pre.length = pre

/-- The entry name a directory listing reports for a file directly inside
`dir`, if any. -/
def entryName (dir path : String) : Option String :=
  let pre := dir.data ++ ['/']
  let rest := path.data.drop pre.length
  if startsWithL pre path.data && !(rest = []) && rest.all (fun c => !(c = '/')) then
    some (String.mk rest)
  else none

/-- tauri fs.readDir: the names of the entries directly inside a
directory.  The state tracks files only, so subdirectory entries are
elided. -/
def dirEntries (st : FSState) (dir : String) : List String :=
  st.files.filterMap (fun q => entryName dir q.1)

/-- Whether some file lies anywhere under the directory `p`. -/
def existsUnder (st : FSState) (p : String) : Bool :=
  st.files.any (fun q => startsWithL (p.data ++ ['/']) q.1.data)

/-- tauri fs.removeDir without the recursive flag: it deletes only an
existing empty directory.  The state tracks files only, so a directory
exists exactly when some file lies under it, and is then nonempty: an
existing directory is a not-empty error and a missing one ENOENT.
No glob expansion happens: the path is taken literally. -/
def removeFsDir (st : FSState) (p : String) : Except FsErr FSState :=
  if existsUnder st p then .error (.Other "ENOTEMPTY") else .error .ENOENT

/-- The per-call options shared by the read-side operations. -/
structure StorageOptions where
  dataPath : Option String := none
deriving Repr

/-- The options of storage.set. -/
structure WriteOptions where
  dataPath : Option String := none
  validate : Option Bool := none
  prettyPrinting : Option Bool := none
deriving Repr

/-- storage.get: resolve the file name, ensure the parent directory
(no effect on the file map), read with the retry loop, parse.  A parse
failure is the CorruptData error; the retries parameter of the source is
unused in the live code. -/
def get (key : String) (options : StorageOptions) (env : Env) (st : FSState) :
    Except Err Json :=
  match getFileName key options.dataPath env with
  | .error e => .error e
  | .ok fileName =>
    match (readFile (traceOfFS st fileName) 0).1 with
    | .error e => .error (.Io e)
    | .ok content =>
      match jparse content with
      | some v => .ok v
      | none => .error .CorruptData

/-- storage.getMany: the source reduces with an async callback over a
plain-object seed.  From the second iteration on, the accumulator the
callback receives is the Promise returned by the previous callback;
the property assignment lands on that Promise object as an expando and is
lost when the chain is awaited, so only the first key survives in the
resolved mapping.  Every get still runs, and any rejection still
propagates. -/
def getMany (ks : List String) (options : StorageOptions) (env : Env) (st : FSState) :
    Except Err (List (String × Json)) :=
  match ks with
  | [] => .ok []
  | k :: rest =>
    match get k options env st with
    | .error e => .error e
    | .ok v =>
      match rest.mapM (fun k2 => get k2 options env st) with
      | .error e => .error e
      | .ok _ => .ok [(k, v)]

/-- storage.set: resolve the file name, serialize (2-space indent exactly
when the prettyPrinting option is truthy), reject empty serializer output,
ensure the directory, and overwrite the file.  The validate option is
dead in the live code: the read-back loop is commented out. -/
def set (key : String) (json : Json) (options : WriteOptions) (env : Env)
    (st : FSState) : Except Err FSState :=
  match getFileName key options.dataPath env with
  | .error e => .error e
  | .ok fileName =>
    let data := jsStringify json (if options.prettyPrinting.getD false then 2 else 0)
    if data = "" then .error .SerializationError
    else .ok (writeFsFile st fileName data)

/-- storage.has: resolve the file name and attempt the underlying read.
The catch branch maps ENOENT to false and rethrows anything else; readFile
itself never throws ENOENT, because it converts a missing file into the
empty-object text. -/
def has (key : String) (options : StorageOptions) (env : Env) (st : FSState) :
    Except Err Bool :=
  match getFileName key options.dataPath env with
  | .error e => .error e
  | .ok filename =>
    match (readFile (traceOfFS st filename) 0).1 with
    | .ok _ => .ok true
    | .error e => if e = .ENOENT then .ok false else .error (.Io e)

/-- storage.keys: resolve the directory, ensure it exists, list it, and
filter with `async (key) => await extname(key.name) === ".json"`.  The
async callback returns a Promise, which is truthy for every entry, so the
filter keeps all entries.  An unresolvable directory is a filesystem
error from createDir. -/
def keys (options : StorageOptions) (env : Env) (st : FSState) :
    Except Err (List String) :=
  match jsOrS options.dataPath (getDataPath env) with
  | none => .error (.Io (.Other "EINVAL"))
  | some userDataPath =>
    let entries := dirEntries st userDataPath
    let jsonFiles := entries.filter (fun _ => promiseIsTruthy)
    .ok jsonFiles

/-- storage.remove: resolve the file name and delete the file.  No
suppression wraps the removeFile call. -/
def remove (key : String) (options : StorageOptions) (env : Env) (st : FSState) :
    Except Err FSState :=
  match getFileName key options.dataPath env with
  | .error e => .error e
  | .ok filename =>
    match removeFsFile st filename with
    | .ok st2 => .ok st2
    | .error e => .error (.Io e)

/-- storage.clear: join the resolved directory with the literal component
`*.json` and call removeDir on that path.  removeDir does not expand
globs, so the call targets a directory literally named `*.json`. -/
def clear (options : StorageOptions) (env : Env) (st : FSState) :
    Except Err FSState :=
  match jsOrS options.dataPath (getDataPath env) with
  | none => .error (.Io (.Other "EINVAL"))
  | some userData =>
    let jsonFiles := userData ++ "/" ++ "*.json"
    match removeFsDir st jsonFiles with
    | .ok st2 => .ok st2
    | .error e => .error (.Io e)

/-- Fixture environment: no process-wide override, a typical platform
default. -/
def env0 : Env := ⟨none, "/home/user/.local/share/storage"⟩

/-- Fixture: the empty filesystem. -/
def fsEmpty : FSState := ⟨[]⟩

/-- Fixture document exercising every constructor. -/
def demoDoc : Json :=
  .obj [("a".data, .num (-31)),
        ("b".data, .arr [.null, .bool true, .str "x y".data])]

theorem natDigitsGo_irrel (n : Nat) : ∀ f g : Nat, n < f → n < g →
    natDigitsGo f n = natDigitsGo g n := by
  induction n using Nat.strong_induction_on with
  | _ n ih =>
    intro f g hf hg
    match f, g with
    | f' + 1, g' + 1 =>
      by_cases h10 : n < 10
      · simp [natDigitsGo, h10]
      · have hdiv : n / 10 < n := Nat.div_lt_self (by omega) (by omega)
        simp only [natDigitsGo, if_neg h10]
        rw [ih (n / 10) hdiv f' g' (by omega) (by omega)]

/-- The recursive unfolding of `natDigits` used by all proofs below. -/
theorem natDigits_eq (n : Nat) : natDigits n =
    if n < 10 then [digitChar n]
    else natDigits (n / 10) ++ [digitChar (n % 10)] := by
  have h1 : natDigits n =
      if n < 10 then [digitChar n]
      else natDigitsGo n (n / 10) ++ [digitChar (n % 10)] := rfl
  rw [h1]
  by_cases h10 : n < 10
  · simp [h10]
  · have hdiv : n / 10 < n := Nat.div_lt_self (by omega) (by omega)
    rw [if_neg h10, if_neg h10,
      natDigitsGo_irrel (n / 10) n (n / 10 + 1) hdiv (by omega)]
    rfl

/-- Decimal rendering of an integer, as JSON.stringify renders integer
numbers. -/
theorem parseDigsAux_stop (acc : Nat) (rest : List Char) (h : delimB rest = true) :
    parseDigsAux acc rest = (acc, rest) := by
  cases rest with
  | nil => rfl
  | cons c r =>
    simp only [delimB, Bool.not_eq_true'] at h
    simp [parseDigsAux, h]

theorem digitChar_isDigit (d : Nat) (h : d < 10) : (digitChar d).isDigit = true := by
  interval_cases d <;> decide

theorem digToNat_digitChar (d : Nat) (h : d < 10) : digToNat (digitChar d) = d := by
  interval_cases d <;> decide

theorem natDigits_all_digits (n : Nat) : ∀ c ∈ natDigits n, c.isDigit = true := by
  induction n using Nat.strong_induction_on with
  | _ n ih =>
    rw [natDigits_eq]
    by_cases h10 : n < 10
    · simp only [if_pos h10, List.mem_singleton]
      intro c hc
      exact hc ▸ digitChar_isDigit n h10
    · have hdiv : n / 10 < n := Nat.div_lt_self (by omega) (by omega)
      simp only [if_neg h10, List.mem_append, List.mem_singleton]
      rintro c (hc | hc)
      · exact ih (n / 10) hdiv c hc
      · exact hc ▸ digitChar_isDigit (n % 10) (Nat.mod_lt n (by omega))

theorem natDigits_ne_nil (n : Nat) : natDigits n ≠ [] := by
  rw [natDigits_eq]
  by_cases h10 : n < 10 <;> simp [h10]

/-- Decimal evaluation of a digit run onto an accumulator, matching what
`parseDigsAux` computes. -/
theorem parseDigsAux_digits (ds : List Char) : ∀ acc rest,
    (∀ c ∈ ds, c.isDigit = true) → delimB rest = true →
    parseDigsAux acc (ds ++ rest) = (digFold acc ds, rest) := by
  induction ds with
  | nil =>
    intro acc rest _ hrest
    simpa [digFold] using parseDigsAux_stop acc rest hrest
  | cons d ds ih =>
    intro acc rest hds hrest
    have hd : d.isDigit = true := hds d (by simp)
    simp only [List.cons_append, parseDigsAux, hd, if_pos, List.append_eq]
    rw [ih (10 * acc + digToNat d) rest (fun c hc => hds c (by simp [hc])) hrest]
    rfl

theorem digFold_natDigits (n : Nat) : ∀ acc,
    digFold acc (natDigits n) = acc * 10 ^ (natDigits n).length + n := by
  induction n using Nat.strong_induction_on with
  | _ n ih =>
    intro acc
    rw [natDigits_eq]
    by_cases h10 : n < 10
    · simp [if_pos h10, digFold, digToNat_digitChar n h10]
      omega
    · have hdiv : n / 10 < n := Nat.div_lt_self (by omega) (by omega)
      rw [if_neg h10]
      have hfold : digFold acc (natDigits (n / 10) ++ [digitChar (n % 10)]) =
          10 * digFold acc (natDigits (n / 10)) + digToNat (digitChar (n % 10)) := by
        simp [digFold, List.foldl_append]
      rw [hfold, ih (n / 10) hdiv acc, digToNat_digitChar (n % 10) (Nat.mod_lt n (by omega))]
      rw [List.length_append, List.length_singleton, pow_succ, ← mul_assoc]
      have hmod := Nat.div_add_mod n 10
      generalize acc * 10 ^ (natDigits (n / 10)).length = A at *
      omega

theorem parseDigsAux_natDigits (n : Nat) (c : Char) (t rest : List Char)
    (hnd : natDigits n = c :: t) (hrest : delimB rest = true) :
    parseDigsAux (digToNat c) (t ++ rest) = (n, rest) := by
  have hds : ∀ d ∈ t, d.isDigit = true := by
    intro d hd
    exact natDigits_all_digits n d (by rw [hnd]; simp [hd])
  rw [parseDigsAux_digits t (digToNat c) rest hds hrest]
  have h1 : digFold 0 (natDigits n) = n := by
    rw [digFold_natDigits n 0]; omega
  rw [hnd] at h1
  have h2 : digFold 0 (c :: t) = digFold (digToNat c) t := by
    simp [digFold]
  rw [h2] at h1
  rw [h1]

theorem parseNat_natDigits (n : Nat) (rest : List Char) (hrest : delimB rest = true) :
    parseNat (natDigits n ++ rest) = some (n, rest) := by
  cases hnd : natDigits n with
  | nil => exact absurd hnd (natDigits_ne_nil n)
  | cons c t =>
    have hc : c.isDigit = true := natDigits_all_digits n c (by rw [hnd]; simp)
    simp only [List.cons_append, parseNat, hc, if_pos]
    rw [parseDigsAux_natDigits n c t rest hnd hrest]

theorem hexVal_hexDigitChar (d : Nat) (h : d < 16) : hexVal (hexDigitChar d) = some d := by
  interval_cases d <;> decide

theorem parseStr_esc (s : List Char) : ∀ rest,
    parseStr (escString s ++ '"' :: rest) = some (s, rest) := by
  induction s with
  | nil => intro rest; rfl
  | cons c cs ih =>
    intro rest
    have hesc : escString (c :: cs) = escChar c ++ escString cs := rfl
    rw [hesc, List.append_assoc]
    by_cases h1 : c = '"'
    · subst h1; simp [escChar, parseStr, parseEsc, unescName, ih]
    by_cases h2 : c = '\\'
    · subst h2; simp [escChar, parseStr, parseEsc, unescName, ih]
    by_cases h3 : c = Char.ofNat 8
    · subst h3; simp [escChar, parseStr, parseEsc, unescName, ih]
    by_cases h4 : c = Char.ofNat 9
    · subst h4; simp [escChar, parseStr, parseEsc, unescName, ih]
    by_cases h5 : c = Char.ofNat 10
    · subst h5; simp [escChar, parseStr, parseEsc, unescName, ih]
    by_cases h6 : c = Char.ofNat 12
    · subst h6; simp [escChar, parseStr, parseEsc, unescName, ih]
    by_cases h7 : c = Char.ofNat 13
    · subst h7; simp [escChar, parseStr, parseEsc, unescName, ih]
    by_cases h8 : c.toNat < 32
    · have hesc2 : escChar c =
          '\\' :: 'u' :: '0' :: '0' ::
            [hexDigitChar (c.toNat / 16), hexDigitChar (c.toNat % 16)] := by
        simp [escChar, uEscape, h1, h2, h3, h4, h5, h6, h7, h8]
      rw [hesc2]
      have hhi : hexVal (hexDigitChar (c.toNat / 16)) = some (c.toNat / 16) :=
        hexVal_hexDigitChar _ (by omega)
      have hlo : hexVal (hexDigitChar (c.toNat % 16)) = some (c.toNat % 16) :=
        hexVal_hexDigitChar _ (by omega)
      have hhex0 : hexVal '0' = some 0 := by decide
      have hhex0 : hexVal '0' = some 0 := by decide
      have hval : 4096 * 0 + 256 * 0 + 16 * (c.toNat / 16) + c.toNat % 16 = c.toNat := by
        omega
      have hstep : parseStr ('\\' :: 'u' :: '0' :: '0' :: hexDigitChar (c.toNat / 16) ::
          hexDigitChar (c.toNat % 16) :: (escString cs ++ '"' :: rest)) =
          parseHex4 ('0' :: '0' :: hexDigitChar (c.toNat / 16) ::
            hexDigitChar (c.toNat % 16) :: (escString cs ++ '"' :: rest)) := rfl
      simp only [List.cons_append, List.nil_append]
      rw [hstep]
      simp only [parseHex4, hhex0, hhi, hlo]
      rw [ih rest]
      simp only [hval, Char.ofNat_toNat]
    · have hesc2 : escChar c = [c] := by
        simp [escChar, h1, h2, h3, h4, h5, h6, h7, h8]
      rw [hesc2]
      simp only [List.cons_append, List.nil_append, List.append_eq, parseStr,
        if_neg h1, if_neg h2, ih rest]

/-- The ten decimal digit characters. -/
theorem digitChar_mem (d : Nat) (h : d < 10) : digitChar d ∈ digitCharsL := by
  interval_cases d <;> decide

theorem natDigits_mem (n : Nat) : ∀ c ∈ natDigits n, c ∈ digitCharsL := by
  induction n using Nat.strong_induction_on with
  | _ n ih =>
    rw [natDigits_eq]
    by_cases h10 : n < 10
    · simp only [if_pos h10, List.mem_singleton]
      intro c hc
      exact hc ▸ digitChar_mem n h10
    · have hdiv : n / 10 < n := Nat.div_lt_self (by omega) (by omega)
      simp only [if_neg h10, List.mem_append, List.mem_singleton]
      rintro c (hc | hc)
      · exact ih (n / 10) hdiv c hc
      · exact hc ▸ digitChar_mem (n % 10) (Nat.mod_lt n (by omega))

theorem mem_digitCharsL_facts (c : Char) (h : c ∈ digitCharsL) :
    c.isDigit = true ∧ c ≠ 'n' ∧ c ≠ 't' ∧ c ≠ 'f' ∧ c ≠ '"' ∧ c ≠ '-' := by
  fin_cases h <;> refine ⟨?_, ?_, ?_, ?_, ?_, ?_⟩ <;> decide

theorem digitCharsL_sub_headChars (c : Char) (h : c ∈ digitCharsL) : c ∈ headChars := by
  fin_cases h <;> decide

theorem mem_headChars_ne_seps (c : Char) (h : c ∈ headChars) :
    (c == ']') = false ∧ (c == rbrace) = false := by
  fin_cases h <;> exact ⟨by decide, by decide⟩

theorem strVal_head (v : Json) : ∃ c t, strVal v = c :: t ∧ c ∈ headChars := by
  cases v with
  | null => exact ⟨'n', _, rfl, by decide⟩
  | bool b =>
    cases b with
    | false => exact ⟨'f', _, rfl, by decide⟩
    | true => exact ⟨'t', _, rfl, by decide⟩
  | num i =>
    cases i with
    | ofNat n =>
      cases hnd : natDigits n with
      | nil => exact absurd hnd (natDigits_ne_nil n)
      | cons c t =>
        refine ⟨c, t, ?_, ?_⟩
        · simp only [strVal, intChars]
          exact hnd
        · exact digitCharsL_sub_headChars c (natDigits_mem n c (by rw [hnd]; simp))
    | negSucc m => exact ⟨'-', _, rfl, by decide⟩
  | str s => exact ⟨'"', _, rfl, by decide⟩
  | arr xs =>
    cases xs with
    | nil => exact ⟨'[', _, rfl, by decide⟩
    | cons x xs => exact ⟨'[', _, rfl, by decide⟩
  | obj fs =>
    cases fs with
    | nil => exact ⟨lbrace, _, rfl, by decide⟩
    | cons f fs => exact ⟨lbrace, _, rfl, by decide⟩

theorem delimB_strTail (xs : List Json) (r : List Char) :
    delimB (strTail xs ++ r) = true := by
  cases xs with
  | nil => rfl
  | cons x xs => rfl

theorem delimB_strFTail (fs : List (List Char × Json)) (r : List Char) :
    delimB (strFTail fs ++ r) = true := by
  cases fs with
  | nil => rfl
  | cons f fs => rfl

theorem parseVal_quote_eq (n : Nat) (r : List Char) : parseVal (n + 1) ('"' :: r) =
    (match parseStr r with
     | some (s, r2) => some (Json.str s, r2)
     | none => none) := rfl

theorem parseVal_dash_eq (n : Nat) (r : List Char) : parseVal (n + 1) ('-' :: r) =
    (match parseNat r with
     | some (m, r2) => some (Json.num (-(m : Int)), r2)
     | none => none) := rfl

theorem parseVal_lbracket_eq (n : Nat) (r : List Char) : parseVal (n + 1) ('[' :: r) =
    (if headIs ']' r then some (Json.arr [], tail1 r)
     else
       match parseVal n r with
       | some (v, r3) =>
         match parseItems n r3 with
         | some (vs, r4) => some (Json.arr (v :: vs), r4)
         | none => none
       | none => none) := rfl

theorem parseVal_lbrace_eq (n : Nat) (r : List Char) : parseVal (n + 1) (lbrace :: r) =
    (if headIs rbrace r then some (Json.obj [], tail1 r)
     else
       match parseMember n r with
       | some (f, r3) =>
         match parseMembers n r3 with
         | some (fs, r4) => some (Json.obj (f :: fs), r4)
         | none => none
       | none => none) := rfl

theorem parseVal_digit_eq (n : Nat) (c : Char) (r : List Char) (h : c ∈ digitCharsL) :
    parseVal (n + 1) (c :: r) =
      some (Json.num ((parseDigsAux (digToNat c) r).1 : Int),
        (parseDigsAux (digToNat c) r).2) := by
  fin_cases h <;> rfl

theorem parseItems_comma_eq (n : Nat) (r : List Char) : parseItems (n + 1) (',' :: r) =
    (match parseVal n r with
     | some (v, r2) =>
       match parseItems n r2 with
       | some (vs, r3) => some (v :: vs, r3)
       | none => none
     | none => none) := rfl

theorem parseMember_quote_eq (n : Nat) (r : List Char) : parseMember (n + 1) ('"' :: r) =
    (match parseStr r with
     | some (k, r2) =>
       match r2 with
       | [] => none
       | colon :: r3 =>
         if colon = ':' then
           match parseVal n r3 with
           | some (v, r4) => some ((k, v), r4)
           | none => none
         else none
     | none => none) := rfl

theorem parseMembers_comma_eq (n : Nat) (r : List Char) : parseMembers (n + 1) (',' :: r) =
    (match parseMember n r with
     | some (f, r2) =>
       match parseMembers n r2 with
       | some (fs, r3) => some (f :: fs, r3)
       | none => none
     | none => none) := rfl

mutual

/-- The parser is a left inverse of the compact serializer on values,
given enough fuel and a continuation that cannot extend a digit run. -/
theorem parseVal_round (v : Json) (n : Nat) (rest : List Char)
    (hn : jsize v ≤ n) (hrest : delimB rest = true) :
    parseVal n (strVal v ++ rest) = some (v, rest) := by
  cases v with
  | null =>
    obtain ⟨m, rfl⟩ : ∃ m, n = m + 1 := ⟨n - 1, by simp [jsize] at hn; omega⟩
    rfl
  | bool b =>
    obtain ⟨m, rfl⟩ : ∃ m, n = m + 1 := ⟨n - 1, by simp [jsize] at hn; omega⟩
    cases b with
    | false => rfl
    | true => rfl
  | num i =>
    obtain ⟨m, rfl⟩ : ∃ m, n = m + 1 := ⟨n - 1, by simp [jsize] at hn; omega⟩
    cases i with
    | ofNat n0 =>
      cases hnd : natDigits n0 with
      | nil => exact absurd hnd (natDigits_ne_nil n0)
      | cons c0 t0 =>
        have hmemd : c0 ∈ digitCharsL := natDigits_mem n0 c0 (by rw [hnd]; simp)
        have hshape : strVal (.num (.ofNat n0)) ++ rest = c0 :: (t0 ++ rest) := by
          simp only [strVal, intChars, hnd, List.cons_append]
        rw [hshape, parseVal_digit_eq m c0 (t0 ++ rest) hmemd]
        simp only [parseDigsAux_natDigits n0 c0 t0 rest hnd hrest]
        rfl
    | negSucc m0 =>
      have hshape : strVal (.num (.negSucc m0)) ++ rest =
          '-' :: (natDigits (m0 + 1) ++ rest) := by
        simp only [strVal, intChars, List.cons_append]
      rw [hshape, parseVal_dash_eq m]
      have hneg : (-((m0 + 1 : Nat) : Int)) = Int.negSucc m0 := by
        rw [Int.negSucc_eq]
        push_cast
        ring
      simp only [parseNat_natDigits (m0 + 1) rest hrest, hneg]
  | str s =>
    obtain ⟨m, rfl⟩ : ∃ m, n = m + 1 := ⟨n - 1, by simp [jsize] at hn; omega⟩
    have hshape : strVal (.str s) ++ rest = '"' :: (escString s ++ '"' :: rest) := by
      simp only [strVal, List.cons_append, List.append_assoc, List.singleton_append,
        List.nil_append]
    rw [hshape, parseVal_quote_eq m]
    simp only [parseStr_esc s rest]
  | arr xs =>
    cases xs with
    | nil =>
      obtain ⟨m, rfl⟩ : ∃ m, n = m + 1 := ⟨n - 1, by simp [jsize] at hn; omega⟩
      rfl
    | cons x xs =>
      simp only [jsize] at hn
      obtain ⟨m, rfl⟩ : ∃ m, n = m + 1 := ⟨n - 1, by omega⟩
      obtain ⟨c0, t0, hx, hmem⟩ := strVal_head x
      obtain ⟨hrb, _⟩ := mem_headChars_ne_seps c0 hmem
      have hshape : strVal (.arr (x :: xs)) ++ rest =
          '[' :: (strVal x ++ (strTail xs ++ rest)) := by
        simp only [strVal, List.cons_append, List.append_assoc]
      rw [hshape, parseVal_lbracket_eq m]
      have hhead : headIs ']' (strVal x ++ (strTail xs ++ rest)) = false := by
        rw [hx, List.cons_append]
        simp only [headIs]
        exact hrb
      rw [if_neg (by simp [hhead])]
      have hv := parseVal_round x m (strTail xs ++ rest) (by omega)
        (delimB_strTail xs rest)
      have hi := parseItems_round xs m rest (by omega) hrest
      simp only [hv, hi]
  | obj fs =>
    cases fs with
    | nil =>
      obtain ⟨m, rfl⟩ : ∃ m, n = m + 1 := ⟨n - 1, by simp [jsize] at hn; omega⟩
      rfl
    | cons f fs =>
      simp only [jsize] at hn
      obtain ⟨m, rfl⟩ : ∃ m, n = m + 1 := ⟨n - 1, by omega⟩
      have hshape : strVal (.obj (f :: fs)) ++ rest =
          lbrace :: (strField f ++ (strFTail fs ++ rest)) := by
        simp only [strVal, List.cons_append, List.append_assoc]
      rw [hshape, parseVal_lbrace_eq m]
      have hhead : headIs rbrace (strField f ++ (strFTail fs ++ rest)) = false := by
        obtain ⟨k, v⟩ := f
        simp only [strField, List.cons_append, headIs]
        decide
      rw [if_neg (by simp [hhead])]
      have hf := parseMember_round f m (strFTail fs ++ rest) (by omega)
        (delimB_strFTail fs rest)
      have hm := parseMembers_round fs m rest (by omega) hrest
      simp only [hf, hm]

/-- The parser for array continuations inverts the serializer of element
tails. -/
theorem parseItems_round (xs : List Json) (n : Nat) (rest : List Char)
    (hn : jsizeL xs ≤ n) (hrest : delimB rest = true) :
    parseItems n (strTail xs ++ rest) = some (xs, rest) := by
  cases xs with
  | nil =>
    obtain ⟨m, rfl⟩ : ∃ m, n = m + 1 := ⟨n - 1, by simp [jsizeL] at hn; omega⟩
    rfl
  | cons x xs =>
    simp only [jsizeL] at hn
    obtain ⟨m, rfl⟩ : ∃ m, n = m + 1 := ⟨n - 1, by omega⟩
    have hshape : strTail (x :: xs) ++ rest =
        ',' :: (strVal x ++ (strTail xs ++ rest)) := by
      simp only [strTail, List.cons_append, List.append_assoc]
    rw [hshape, parseItems_comma_eq m]
    have hv := parseVal_round x m (strTail xs ++ rest) (by omega)
      (delimB_strTail xs rest)
    have hi := parseItems_round xs m rest (by omega) hrest
    simp only [hv, hi]

/-- The parser for single object members inverts the serializer of
members. -/
theorem parseMember_round (f : List Char × Json) (n : Nat) (rest : List Char)
    (hn : jsizeF f ≤ n) (hrest : delimB rest = true) :
    parseMember n (strField f ++ rest) = some (f, rest) := by
  obtain ⟨k, v⟩ := f
  simp only [jsizeF] at hn
  obtain ⟨m, rfl⟩ : ∃ m, n = m + 1 := ⟨n - 1, by omega⟩
  have hshape : strField (k, v) ++ rest =
      '"' :: (escString k ++ '"' :: (':' :: (strVal v ++ rest))) := by
    simp only [strField, List.cons_append, List.append_assoc]
  rw [hshape, parseMember_quote_eq m]
  have hv := parseVal_round v m rest (by omega) hrest
  simp [parseStr_esc k (':' :: (strVal v ++ rest)), hv]

/-- The parser for object continuations inverts the serializer of member
tails. -/
theorem parseMembers_round (fs : List (List Char × Json)) (n : Nat) (rest : List Char)
    (hn : jsizeFL fs ≤ n) (hrest : delimB rest = true) :
    parseMembers n (strFTail fs ++ rest) = some (fs, rest) := by
  cases fs with
  | nil =>
    obtain ⟨m, rfl⟩ : ∃ m, n = m + 1 := ⟨n - 1, by simp [jsizeFL] at hn; omega⟩
    rfl
  | cons f fs =>
    simp only [jsizeFL] at hn
    obtain ⟨m, rfl⟩ : ∃ m, n = m + 1 := ⟨n - 1, by omega⟩
    have hshape : strFTail (f :: fs) ++ rest =
        ',' :: (strField f ++ (strFTail fs ++ rest)) := by
      simp only [strFTail, List.cons_append, List.append_assoc]
    rw [hshape, parseMembers_comma_eq m]
    have hf := parseMember_round f m (strFTail fs ++ rest) (by omega)
      (delimB_strFTail fs rest)
    have hm := parseMembers_round fs m rest (by omega) hrest
    simp only [hf, hm]

end

mutual

/-- The fuel bound is dominated by the length of the serialized text. -/
theorem jsize_le (v : Json) : jsize v ≤ (strVal v).length := by
  cases v with
  | null => simp [jsize, strVal]
  | bool b => cases b <;> simp [jsize, strVal]
  | num i =>
    have h1 : (strVal (.num i)).length ≥ 1 := by
      cases i with
      | ofNat n0 =>
        cases hnd : natDigits n0 with
        | nil => exact absurd hnd (natDigits_ne_nil n0)
        | cons c0 t0 => simp [strVal, intChars, hnd]
      | negSucc m0 => simp [strVal, intChars]
    simp only [jsize]
    omega
  | str s =>
    simp only [jsize, strVal, List.length_cons, List.length_append]
    omega
  | arr xs =>
    cases xs with
    | nil => simp [jsize, strVal]
    | cons x xs =>
      have h1 := jsize_le x
      have h2 := jsizeL_le xs
      simp only [jsize, strVal, List.length_cons, List.length_append]
      omega
  | obj fs =>
    cases fs with
    | nil => simp [jsize, strVal]
    | cons f fs =>
      have h1 := jsizeF_le f
      have h2 := jsizeFL_le fs
      simp only [jsize, strVal, List.length_cons, List.length_append]
      omega

theorem jsizeL_le (xs : List Json) : jsizeL xs ≤ (strTail xs).length := by
  cases xs with
  | nil => simp [jsizeL, strTail]
  | cons x xs =>
    have h1 := jsize_le x
    have h2 := jsizeL_le xs
    simp only [jsizeL, strTail, List.length_cons, List.length_append]
    omega

theorem jsizeF_le (f : List Char × Json) : jsizeF f ≤ (strField f).length := by
  obtain ⟨k, v⟩ := f
  have h1 := jsize_le v
  simp only [jsizeF, strField, List.length_cons, List.length_append]
  omega

theorem jsizeFL_le (fs : List (List Char × Json)) : jsizeFL fs ≤ (strFTail fs).length := by
  cases fs with
  | nil => simp [jsizeFL, strFTail]
  | cons f fs =>
    have h1 := jsizeF_le f
    have h2 := jsizeFL_le fs
    simp only [jsizeFL, strFTail, List.length_cons, List.length_append]
    omega

end

/-- The JSON.parse model recovers every value from its JSON.stringify
text: the serializer-parser round trip on whole documents. -/
theorem jparse_strJ (v : Json) : jparse (strJ v) = some v := by
  have hdata : (strJ v).data = strVal v := rfl
  have h := parseVal_round v ((strVal v).length + 1) []
    (by have := jsize_le v; omega) rfl
  rw [List.append_nil] at h
  unfold jparse
  rw [hdata, h]

/-- The compact serialization of a value is never the empty string, so the
empty-output check in storage.set never fires for a serializable
document. -/
theorem strJ_ne_empty (v : Json) : strJ v ≠ "" := by
  obtain ⟨c, t, hx, _⟩ := strVal_head v
  intro h
  have hdata : strVal v = ([] : List Char) := congrArg String.data h
  rw [hx] at hdata
  exact List.cons_ne_nil c t hdata

theorem lookupFile_write (st : FSState) (p c : String) :
    lookupFile (writeFsFile st p c) p = some c := by
  simp [lookupFile, writeFsFile, List.lookup]

/-- One unfolding of the retry loop at its entry point. -/
theorem readFile_zero (tr : Nat → ReadOutcome) :
    readFile tr 0 =
      (match tr 0 with
       | .ok c => (.ok c, [])
       | .err .ENOENT => (.ok emptyObjText, [])
       | .err .EPERM => ((readFileGo tr 10 1).1, 1000 :: (readFileGo tr 10 1).2)
       | .err e => (.error e, [])) := rfl

theorem basenameL_aux_noSlash (ys : List Char) : ∀ B : List Char,
    (∀ c ∈ ys, ¬ c = '/') →
    ys.foldl (fun acc c => if c = '/' then [] else acc ++ [c]) B = B ++ ys := by
  induction ys with
  | nil => intro B _; simp
  | cons y ys ih =>
    intro B hys
    have hy : ¬ y = '/' := hys y (by simp)
    simp only [List.foldl_cons, if_neg hy]
    rw [ih (B ++ [y]) (fun c hc => hys c (by simp [hc]))]
    simp

theorem basenameL_append (xs ys : List Char) (h : ∀ c ∈ ys, ¬ c = '/') :
    basenameL (xs ++ ys) = basenameL xs ++ ys := by
  unfold basenameL
  rw [List.foldl_append]
  exact basenameL_aux_noSlash ys _ h

theorem basenameL_suffix (cs : List Char) : ∃ pre, cs = pre ++ basenameL cs := by
  induction cs using List.reverseRecOn with
  | nil => exact ⟨[], rfl⟩
  | append_singleton cs c ih =>
    obtain ⟨pre, hpre⟩ := ih
    unfold basenameL
    rw [List.foldl_append]
    by_cases hc : c = '/'
    · exact ⟨cs ++ [c], by simp [basenameL, hc]⟩
    · refine ⟨pre, ?_⟩
      simp only [List.foldl_cons, List.foldl_nil, if_neg hc]
      conv in cs.foldl _ _ => rw [show (fun acc c => if c = '/' then [] else acc ++ [c]) =
        (fun acc c => if c = '/' then [] else acc ++ [c]) from rfl]
      have : cs.foldl (fun acc c => if c = '/' then [] else acc ++ [c]) [] =
          basenameL cs := rfl
      rw [this, ← List.append_assoc, ← hpre]

theorem drop_len_add (pre : List Char) : ∀ (b : List Char) (k : Nat),
    (pre ++ b).drop (pre.length + k) = b.drop k := by
  induction pre with
  | nil => intro b k; simp
  | cons p pre ih =>
    intro b k
    simp only [List.cons_append, List.length_cons]
    have : pre.length + 1 + k = (pre.length + k) + 1 := by omega
    rw [this, List.drop_succ_cons, ih]

theorem endsWithL_append (xs suf : List Char) : endsWithL (xs ++ suf) suf = true := by
  unfold endsWithL
  have hlen : (xs ++ suf).length - suf.length = xs.length := by
    simp [List.length_append]
  rw [hlen, List.drop_left]
  simp

theorem endsWithL_prepend (pre b suf : List Char) (h : endsWithL b suf = true) :
    endsWithL (pre ++ b) suf = true := by
  unfold endsWithL at h ⊢
  simp only [decide_eq_true_eq] at h ⊢
  have hlen : suf.length ≤ b.length := by
    by_contra hlt
    push_neg at hlt
    have h0 : b.length - suf.length = 0 := by omega
    rw [h0, List.drop_zero] at h
    subst h
    omega
  have harith : (pre ++ b).length - suf.length = pre.length + (b.length - suf.length) := by
    simp [List.length_append]
    omega
  rw [harith, drop_len_add, h]

theorem stripDotJson_append (b : List Char) : stripDotJson (b ++ dotJson) = b := by
  unfold stripDotJson
  rw [if_pos (endsWithL_append b dotJson)]
  have hlen : (b ++ dotJson).length - dotJson.length = b.length := by
    simp [List.length_append]
  rw [hlen, List.take_left]

/-- Appending the `.json` extension to a key that does not already end in
it derives the same escaped file name. -/
theorem derivedFileName_json (key : String)
    (h : endsWithL key.data dotJson = false) :
    derivedFileName (key ++ ".json") = derivedFileName key := by
  have hslash : ∀ c ∈ dotJson, ¬ c = '/' := by decide
  have hdata : (key ++ ".json").data = key.data ++ dotJson := String.data_append key ".json"
  unfold derivedFileName
  rw [hdata, basenameL_append key.data dotJson hslash, stripDotJson_append]
  have hnb : endsWithL (basenameL key.data) dotJson = false := by
    by_contra hb
    rw [Bool.not_eq_false] at hb
    obtain ⟨pre, hpre⟩ := basenameL_suffix key.data
    have hw := endsWithL_prepend pre (basenameL key.data) dotJson hb
    rw [← hpre] at hw
    rw [hw] at h
    exact absurd h (by decide)
  rw [show stripDotJson (basenameL key.data) = basenameL key.data from by
    unfold stripDotJson; rw [if_neg (by simp [hnb])]]

/-- C1: for every JSON-serializable document and every key and data
directory on which the file name resolves, set followed by get with the
same data directory returns a value equal to the document.  The write
options are the defaults: no validation, compact output. -/
theorem claim1_set_get_roundtrip (key : String) (v : Json) (opts : StorageOptions)
    (env : Env) (st : FSState) (fn : String)
    (hfn : getFileName key opts.dataPath env = .ok fn) :
    ∃ st2, set key v ⟨opts.dataPath, none, none⟩ env st = .ok st2 ∧
      get key opts env st2 = .ok v := by
  refine ⟨writeFsFile st fn (strJ v), ?_, ?_⟩
  · unfold set
    rw [show getFileName key (WriteOptions.mk opts.dataPath none none).dataPath env =
      .ok fn from hfn]
    show (if strJ v = "" then (.error .SerializationError : Except Err FSState)
      else .ok (writeFsFile st fn (strJ v))) = .ok (writeFsFile st fn (strJ v))
    rw [if_neg (strJ_ne_empty v)]
  · have htr : traceOfFS (writeFsFile st fn (strJ v)) fn =
        fun _ => .ok (strJ v) := by
      funext i
      unfold traceOfFS
      rw [lookupFile_write]
    have hrf : (readFile (traceOfFS (writeFsFile st fn (strJ v)) fn) 0).1 =
        .ok (strJ v) := by
      rw [htr]
      rfl
    simp only [get, hfn, hrf, jparse_strJ v]

/-- C1 witness: a concrete set-then-get round trip through the file
`/d/foo.json` on the empty filesystem, for a document exercising objects,
arrays, strings, booleans, null and a negative number. -/
theorem claim1_witness :
    ∃ st2, set "foo" demoDoc ⟨some "/d", none, none⟩ env0 fsEmpty = .ok st2 ∧
      get "foo" ⟨some "/d"⟩ env0 st2 = .ok demoDoc :=
  claim1_set_get_roundtrip "foo" demoDoc ⟨some "/d"⟩ env0 fsEmpty "/d/foo.json" rfl

/-- C2: for every key and data directory on which the file name resolves,
when no file exists at the derived path, get returns the empty object and
no error: the ENOENT from the read is converted into the text of the
empty object before parsing. -/
theorem claim2_get_missing_empty (key : String) (opts : StorageOptions)
    (env : Env) (st : FSState) (fn : String)
    (hfn : getFileName key opts.dataPath env = .ok fn)
    (hmiss : lookupFile st fn = none) :
    get key opts env st = .ok (Json.obj []) := by
  have htr : traceOfFS st fn = fun _ => .err .ENOENT := by
    funext i
    unfold traceOfFS
    rw [hmiss]
  have hrf : (readFile (traceOfFS st fn) 0).1 = .ok emptyObjText := by
    rw [htr]
    rfl
  simp only [get, hfn, hrf, show jparse emptyObjText = some (Json.obj []) from rfl]

/-- C2 witness: get on a never-written key over the empty filesystem. -/
theorem claim2_witness : get "foo" ⟨some "/d"⟩ env0 fsEmpty = .ok (Json.obj []) :=
  claim2_get_missing_empty "foo" ⟨some "/d"⟩ env0 fsEmpty "/d/foo.json" rfl rfl

/-- C3: the claim says getDataPath falls back to the computed default when
no override is set.  In the code the expression
`new Promise(...) || await getDefaultDataPath()` always takes the Promise
branch because a Promise object is truthy, so after setDataPath(none)
clears the override, getDataPath yields the absent value and never the
default; an explicit override is returned as the claim states. -/
theorem claim3_getDataPath_ignores_default :
    setDataPath none = .ok none ∧
    getDataPath ⟨none, "/home/user/.local/share/storage"⟩ = none ∧
    getDataPath ⟨some "/custom/dir", "/home/user/.local/share/storage"⟩ =
      some "/custom/dir" :=
  ⟨rfl, rfl, rfl⟩

/-- C4: the claim says has returns false when the file does not exist.  In
the code readFile converts ENOENT into the empty-object text, so the
ENOENT branch of the catch in has is unreachable and has answers true for
a missing file. -/
theorem claim4_has_true_on_missing :
    lookupFile fsEmpty "/d/foo.json" = none ∧
    has "foo" ⟨some "/d"⟩ env0 fsEmpty = .ok true :=
  ⟨rfl, rfl⟩

/-- C5: the claim says remove is idempotent with not-found suppressed.  In
the code remove calls removeFile with no catch, so the second remove of
the same key surfaces the ENOENT of the underlying delete. -/
theorem claim5_remove_missing_raises :
    remove "a" ⟨some "/d"⟩ env0 (FSState.mk [("/d/a.json", emptyObjText)]) =
      .ok fsEmpty ∧
    remove "a" ⟨some "/d"⟩ env0 fsEmpty = .error (.Io FsErr.ENOENT) :=
  ⟨rfl, rfl⟩

/-- C6: the claim says keys returns exactly the entries with a `.json`
extension.  The filter callback in the code is async and returns a
Promise, which is truthy for every entry, so a non-json entry such as
`note.txt` is kept in the result. -/
theorem claim6_keys_returns_all_entries :
    keys ⟨some "/d"⟩ env0
      (FSState.mk [("/d/a.json", emptyObjText), ("/d/note.txt", "hello")]) =
      .ok ["a.json", "note.txt"] :=
  rfl

/-- C7: the claim says clear deletes every `.json` file so that keys then
reports nothing.  The code joins the directory with the literal component
`*.json` and calls removeDir on that path; removeDir does not expand
globs, so on a directory holding the previously-set `a.json` the call
fails with ENOENT and the file survives: keys still reports it. -/
theorem claim7_clear_glob_fails :
    set "a" (Json.obj []) ⟨some "/d", none, none⟩ env0 fsEmpty =
      .ok (FSState.mk [("/d/a.json", emptyObjText)]) ∧
    clear ⟨some "/d"⟩ env0 (FSState.mk [("/d/a.json", emptyObjText)]) =
      .error (.Io FsErr.ENOENT) ∧
    keys ⟨some "/d"⟩ env0 (FSState.mk [("/d/a.json", emptyObjText)]) =
      .ok ["a.json"] :=
  ⟨rfl, rfl, rfl⟩

/-- C8: the claim says getMany returns one entry per requested key.  The
code reduces with an async callback, so from the second iteration on the
property assignment lands on the Promise returned by the previous
callback and is lost when the chain is awaited: with both `a` and `b`
stored, only the entry for `a` survives. -/
theorem claim8_getMany_loses_later_keys :
    getMany ["a", "b"] ⟨some "/d"⟩ env0
      (FSState.mk [("/d/a.json", strJ (Json.num 1)), ("/d/b.json", strJ (Json.num 2))]) =
      .ok [("a", Json.num 1)] :=
  rfl

/-- C9: the `.json` suffix is appended exactly once at the end: for every
valid key not already carrying the suffix, the key and the key with
`.json` appended resolve to the same file name; a key with another
extension such as `foo.data` yields `foo.data.json`; `foo.json` and `foo`
both resolve to `/d/foo.json`. -/
theorem claim9_suffix_once :
    (∀ (key : String) (p : Option String) (env : Env),
      key.data.all Char.isWhitespace = false →
      endsWithL key.data dotJson = false →
      getFileName (key ++ ".json") p env = getFileName key p env) ∧
    getFileName "foo.data" (some "/d") env0 = .ok "/d/foo.data.json" ∧
    getFileName "foo.json" (some "/d") env0 = .ok "/d/foo.json" ∧
    getFileName "foo" (some "/d") env0 = .ok "/d/foo.json" := by
  refine ⟨?_, rfl, rfl, rfl⟩
  intro key p env hws hnj
  have hdata : (key ++ ".json").data = key.data ++ dotJson := String.data_append key ".json"
  have hne1 : ¬ (key ++ ".json") = "" := by
    intro h
    have h2 : (key ++ ".json").data = ([] : List Char) := congrArg String.data h
    rw [hdata] at h2
    rw [List.append_eq_nil] at h2
    exact absurd h2.2 (by decide)
  have hne2 : ¬ (key ++ ".json").data.all Char.isWhitespace = true := by
    rw [hdata, List.all_append]
    have : dotJson.all Char.isWhitespace = false := rfl
    rw [this]
    simp
  have hne3 : ¬ key = "" := by
    intro h
    subst h
    exact absurd hws (by decide)
  have hne4 : ¬ key.data.all Char.isWhitespace = true := by
    rw [hws]
    simp
  unfold getFileName
  rw [if_neg hne1, if_neg hne2, if_neg hne3, if_neg hne4,
    derivedFileName_json key hnj]

/-- C9 witness: the general suffix lemma applied at the key `bar`. -/
theorem claim9_witness :
    getFileName ("bar" ++ ".json") (some "/d") env0 =
      getFileName "bar" (some "/d") env0 :=
  claim9_suffix_once.1 "bar" (some "/d") env0 (by decide) (by decide)

/-- C10: on an oracle that reports a transient permission error at every
attempt, the read sleeps 1000 ms before each of its 10 retries and then
surfaces the permission error; an error other than not-found and
permission-denied on the first attempt is surfaced at once with no sleep,
and a successful first read performs no sleep. -/
theorem claim10_readFile_retry_policy :
    readFile (fun _ => ReadOutcome.err .EPERM) 0 =
      (.error FsErr.EPERM, List.replicate 10 1000) ∧
    (∀ (tr : Nat → ReadOutcome) (s : String), tr 0 = .err (.Other s) →
      readFile tr 0 = (.error (.Other s), [])) ∧
    (∀ (tr : Nat → ReadOutcome) (c : String), tr 0 = .ok c →
      readFile tr 0 = (.ok c, [])) := by
  refine ⟨rfl, ?_, ?_⟩
  · intro tr s h
    rw [readFile_zero, h]
  · intro tr c h
    rw [readFile_zero, h]

/-- C10 witness: a read failing with an access error distinct from ENOENT
and EPERM surfaces immediately without any sleep. -/
theorem claim10_witness :
    readFile (fun _ => ReadOutcome.err (.Other "EACCES")) 0 =
      (.error (FsErr.Other "EACCES"), []) :=
  claim10_readFile_retry_policy.2.1 (fun _ => ReadOutcome.err (.Other "EACCES"))
    "EACCES" rfl

end TauriJsonStorage
